import Mathlib

/-
Verification of the change-detection and data-lifecycle subsystem of
scripts/daily_calendar.py (simple-investment-calendar).

The Python code is shallowly embedded: the StandardizedEvent dataclass becomes
a Lean structure, Python dicts keyed by event key become insertion-ordered
association lists with last-write-wins semantics, Python string comparison
(lexicographic on Unicode code points) is modelled by an explicit recursive
comparison on character lists, and the on-disk partitions (current / previous /
archived) become a record of per-platform event lists.
-/

namespace InvestmentCalendar

/-- Python string comparison `a < b` is lexicographic on Unicode code points:
a shorter string that is a proper prefix of a longer one is smaller.  Modelled
on the underlying character lists, comparing code points as naturals. -/
def pyCharListLt : List Char → List Char → Bool
  | [], [] => false
  | [], _ :: _ => true
  | _ :: _, [] => false
  | a :: as, b :: bs =>
    if a.toNat < b.toNat then true
    else if b.toNat < a.toNat then false
    else pyCharListLt as bs

/-- Python `a < b` on strings. -/
def pyStrLt (a b : String) : Bool := pyCharListLt a.data b.data

/-- Python `a <= b` on strings, which is exactly `not (b < a)` for the total
order on strings; likewise Python `a >= b` is `pyStrLe b a`. -/
def pyStrLe (a b : String) : Bool := !(pyStrLt b a)

theorem pyCharListLt_asymm : ∀ a b : List Char,
    pyCharListLt a b = true → pyCharListLt b a = false := by
  intro a
  induction a with
  | nil => intro b hb; cases b with
    | nil => simp [pyCharListLt] at hb
    | cons x xs => simp [pyCharListLt]
  | cons x xs ih =>
    intro b hb
    cases b with
    | nil => simp [pyCharListLt] at hb
    | cons y ys =>
      simp only [pyCharListLt] at hb ⊢
      by_cases h1 : x.toNat < y.toNat
      · have h2 : ¬ y.toNat < x.toNat := Nat.lt_asymm h1
        simp [h1, h2]
      · by_cases h2 : y.toNat < x.toNat
        · simp [h1, h2] at hb
        · simp [h1, h2] at hb ⊢
          exact ih ys hb

theorem pyCharListLt_conn : ∀ a b : List Char,
    pyCharListLt a b = false → pyCharListLt b a = false → a = b := by
  intro a
  induction a with
  | nil => intro b hab hba; cases b with
    | nil => rfl
    | cons y ys => simp [pyCharListLt] at hab
  | cons x xs ih =>
    intro b hab hba
    cases b with
    | nil => simp [pyCharListLt] at hba
    | cons y ys =>
      simp only [pyCharListLt] at hab hba
      by_cases h1 : x.toNat < y.toNat
      · simp [h1] at hab
      · by_cases h2 : y.toNat < x.toNat
        · simp [h2] at hba
        · simp [h1, h2] at hab hba
          have hxy : x = y := by
            have hn : x.toNat = y.toNat :=
              Nat.le_antisymm (Nat.le_of_not_lt h2) (Nat.le_of_not_lt h1)
            exact Char.ext (UInt32.toNat.inj hn)
          rw [hxy, ih ys hab hba]

theorem pyCharListLt_trans : ∀ a b c : List Char,
    pyCharListLt a b = true → pyCharListLt b c = true → pyCharListLt a c = true := by
  intro a
  induction a with
  | nil =>
    intro b c hab hbc
    cases c with
    | nil =>
      cases b with
      | nil => simp [pyCharListLt] at hab
      | cons y ys => simp [pyCharListLt] at hbc
    | cons z zs => simp [pyCharListLt]
  | cons x xs ih =>
    intro b c hab hbc
    cases b with
    | nil => simp [pyCharListLt] at hab
    | cons y ys =>
      cases c with
      | nil => simp [pyCharListLt] at hbc
      | cons z zs =>
        simp only [pyCharListLt] at hab hbc ⊢
        by_cases hxy : x.toNat < y.toNat
        · by_cases hyz : y.toNat < z.toNat
          · simp [Nat.lt_trans hxy hyz]
          · by_cases hzy : z.toNat < y.toNat
            · simp [hyz, hzy] at hbc
            · have : y.toNat = z.toNat := Nat.le_antisymm (Nat.le_of_not_lt hzy) (Nat.le_of_not_lt hyz)
              simp [← this, hxy]
        · by_cases hyx : y.toNat < x.toNat
          · simp [hxy, hyx] at hab
          · have hxyeq : x.toNat = y.toNat := Nat.le_antisymm (Nat.le_of_not_lt hyx) (Nat.le_of_not_lt hxy)
            simp [hxy, hyx] at hab
            by_cases hyz : y.toNat < z.toNat
            · simp [hxyeq, hyz]
            · by_cases hzy : z.toNat < y.toNat
              · simp [hyz, hzy] at hbc
              · simp [hyz, hzy] at hbc
                simp [hxyeq, hyz, hzy]
                exact ih ys zs hab hbc

theorem pyStrLt_asymm {a b : String} (h : pyStrLt a b = true) : pyStrLt b a = false :=
  pyCharListLt_asymm a.data b.data h

theorem pyStrLt_conn {a b : String} (hab : pyStrLt a b = false)
    (hba : pyStrLt b a = false) : a = b := by
  cases a with
  | mk da => cases b with
    | mk db =>
      have : da = db := pyCharListLt_conn da db hab hba
      rw [this]

theorem pyStrLt_trans {a b c : String} (hab : pyStrLt a b = true)
    (hbc : pyStrLt b c = true) : pyStrLt a c = true :=
  pyCharListLt_trans a.data b.data c.data hab hbc

theorem pyStrLe_total (a b : String) : pyStrLe a b = true ∨ pyStrLe b a = true := by
  by_cases h : pyStrLt b a = true
  · right
    simp [pyStrLe, pyStrLt_asymm h]
  · left
    simp [pyStrLe]
    exact Bool.eq_false_iff.mpr h

theorem pyStrLe_trans {a b c : String} (hab : pyStrLe a b = true)
    (hbc : pyStrLe b c = true) : pyStrLe a c = true := by
  simp only [pyStrLe, Bool.not_eq_true'] at hab hbc ⊢
  by_cases hca : pyStrLt c a = true
  · by_cases hlt : pyStrLt a b = true
    · have := pyStrLt_trans hca hlt
      rw [this] at hbc
      cases hbc
    · have hba : pyStrLt b a = false := hab
      have : a = b := pyStrLt_conn (Bool.eq_false_iff.mpr hlt) hba
      rw [← this] at hbc
      rw [hca] at hbc
      cases hbc
  · exact Bool.eq_false_iff.mpr hca

/-- The StandardizedEvent dataclass of daily_calendar.py.  Optional fields are
Options; the fields that default to empty containers (stocks, concepts, themes,
raw_data) are plain lists set up by post-init.  The raw_data dict is modelled
as a string-keyed association list, which is all the core ever reads from it
(only the key event_attr_id is consulted, by the investing identity key). -/
structure StandardizedEvent where
  platform : String
  event_id : String
  original_id : String
  event_date : String
  event_time : Option String := none
  event_datetime : Option String := none
  title : String := ""
  content : Option String := none
  category : Option String := none
  importance : Option Int := none
  country : Option String := none
  city : Option String := none
  stocks : List String := []
  concepts : List (String × String) := []
  themes : List String := []
  data_status : String := "ACTIVE"
  is_new : Bool := false
  discovery_date : String := ""
  raw_data : List (String × String) := []
  created_at : String := ""
  deriving DecidableEq, Repr

/-- Python dict .get(key, default) on the raw_data association list. -/
def rawGet (d : List (String × String)) (k deflt : String) : String :=
  match d.find? (fun kv => kv.1 == k) with
  | some kv => kv.2
  | none => deflt

/-- Python f-string interpolation of an optional value: None renders as the
four-character string None. -/
def optStr : Option String → String
  | none => "None"
  | some s => s

/-- ChangeDetectionEngine._generate_event_key.  The tonghuashun branch uses
hashlib.md5(title.encode()).hexdigest()[:8]; MD5 is a fixed deterministic
function whose internals are irrelevant to every claim, so it is passed in as
an explicit function parameter md5hex8. -/
def generateEventKey (md5hex8 : String → String) (e : StandardizedEvent) : String :=
  if e.platform == "cls" then
    e.original_id ++ "_" ++ e.event_date ++ "_" ++ optStr e.category
  else if e.platform == "jiuyangongshe" then
    e.original_id ++ "_" ++ e.event_date
  else if e.platform == "tonghuashun" then
    e.event_date ++ "_" ++ md5hex8 e.title
  else if e.platform == "investing" then
    rawGet e.raw_data "event_attr_id" "" ++ "_" ++ e.event_date ++ "_" ++ optStr e.event_time
  else if e.platform == "eastmoney" then
    e.original_id ++ "_" ++ e.event_date
  else
    e.event_id

/-- Membership test on a key map, Python `key in d`. -/
def hasKey (m : List (String × StandardizedEvent)) (k : String) : Bool :=
  m.any (fun kv => kv.1 == k)

/-- Python dict lookup d[key] (defined when the key is present). -/
def lookupKM (m : List (String × StandardizedEvent)) (k : String) :
    Option StandardizedEvent :=
  (m.find? (fun kv => kv.1 == k)).map (fun kv => kv.2)

/-- Single insertion into an insertion-ordered map with last-write-wins
value semantics, the behaviour of `d[k] = v` on a Python dict: an existing
key keeps its position and gets the new value, a fresh key is appended. -/
def insertKM (m : List (String × StandardizedEvent)) (k : String)
    (v : StandardizedEvent) : List (String × StandardizedEvent) :=
  if hasKey m k then m.map (fun kv => if kv.1 == k then (k, v) else kv)
  else m ++ [(k, v)]

/-- The dict comprehension building prev_map / curr_map in
ChangeDetectionEngine._detect_platform_changes. -/
def buildKeyMap (md5hex8 : String → String) (events : List StandardizedEvent) :
    List (String × StandardizedEvent) :=
  events.foldl (fun m e => insertKM m (generateEventKey md5hex8 e) e) []

theorem mem_insertKM {m : List (String × StandardizedEvent)} {k : String}
    {v : StandardizedEvent} {kv : String × StandardizedEvent}
    (h : kv ∈ insertKM m k v) : kv ∈ m ∨ kv = (k, v) := by
  unfold insertKM at h
  split at h
  · rcases List.mem_map.mp h with ⟨kv0, hkv0, hrw⟩
    by_cases heq : kv0.1 = k
    · right
      rw [← hrw]
      simp [heq]
    · left
      have hb : (kv0.1 == k) = false := by simpa using heq
      rw [← hrw]
      simp only [hb, Bool.false_eq_true, if_false]
      exact hkv0
  · rcases List.mem_append.mp h with h | h
    · exact Or.inl h
    · right
      simpa using h

theorem mem_buildKeyMapAux (md5hex8 : String → String) :
    ∀ (l : List StandardizedEvent) (m : List (String × StandardizedEvent))
      (kv : String × StandardizedEvent),
      kv ∈ l.foldl (fun m e => insertKM m (generateEventKey md5hex8 e) e) m →
      kv ∈ m ∨ (kv.1 = generateEventKey md5hex8 kv.2 ∧ kv.2 ∈ l) := by
  intro l
  induction l with
  | nil => intro m kv h; exact Or.inl h
  | cons e rest ih =>
    intro m kv h
    simp only [List.foldl_cons] at h
    rcases ih _ kv h with h1 | h2
    · rcases mem_insertKM h1 with h3 | h3
      · exact Or.inl h3
      · right
        rw [h3]
        exact ⟨rfl, List.mem_cons_self e rest⟩
    · right
      exact ⟨h2.1, List.mem_cons_of_mem e h2.2⟩

/-- Every entry of the key map pairs an event from the input list with its own
identity key. -/
theorem mem_buildKeyMap {md5hex8 : String → String}
    {events : List StandardizedEvent} {kv : String × StandardizedEvent}
    (h : kv ∈ buildKeyMap md5hex8 events) :
    kv.1 = generateEventKey md5hex8 kv.2 ∧ kv.2 ∈ events := by
  rcases mem_buildKeyMapAux md5hex8 events [] kv h with h1 | h2
  · cases h1
  · exact h2

theorem hasKey_of_mem {m : List (String × StandardizedEvent)}
    {kv : String × StandardizedEvent} (h : kv ∈ m) : hasKey m kv.1 = true := by
  unfold hasKey
  rw [List.any_eq_true]
  exact ⟨kv, h, by simp⟩

theorem lookupKM_mem {m : List (String × StandardizedEvent)} {k : String}
    {v : StandardizedEvent} (h : lookupKM m k = some v) : (k, v) ∈ m := by
  unfold lookupKM at h
  rcases Option.map_eq_some'.mp h with ⟨kv, hfind, hv⟩
  have hmem := List.mem_of_find?_eq_some hfind
  have hpred := List.find?_some hfind
  have hk : kv.1 = k := by simpa using hpred
  have : kv = (k, v) := by
    cases kv
    simp at hk hv
    simp [hk, hv]
  rw [← this]
  exact hmem

theorem lookupKM_isSome_of_hasKey {m : List (String × StandardizedEvent)}
    {k : String} (h : hasKey m k = true) : ∃ v, lookupKM m k = some v := by
  unfold hasKey at h
  rw [List.any_eq_true] at h
  rcases h with ⟨kv, hmem, hpred⟩
  have : (m.find? (fun kv => kv.1 == k)).isSome := List.find?_isSome.mpr ⟨kv, hmem, hpred⟩
  rcases Option.isSome_iff_exists.mp this with ⟨kv0, hfind⟩
  exact ⟨kv0.2, by simp [lookupKM, hfind]⟩

theorem hasKey_of_lookupKM {m : List (String × StandardizedEvent)} {k : String}
    {v : StandardizedEvent} (h : lookupKM m k = some v) : hasKey m k = true := by
  have hmem := lookupKM_mem h
  simpa using hasKey_of_mem hmem

/-- ChangeDetectionEngine._has_content_changed: any difference in title,
event_datetime, importance, content or country counts as a change. -/
def hasContentChanged (prevEvent currEvent : StandardizedEvent) : Bool :=
  prevEvent.title != currEvent.title ||
  prevEvent.event_datetime != currEvent.event_datetime ||
  prevEvent.importance != currEvent.importance ||
  prevEvent.content != currEvent.content ||
  prevEvent.country != currEvent.country

/-- The per-platform result dict of _detect_platform_changes. -/
structure PlatformChanges where
  new_events : List StandardizedEvent
  updated_events : List StandardizedEvent
  cancelled_events : List StandardizedEvent
  deriving DecidableEq, Repr

/-- ChangeDetectionEngine._detect_platform_changes.  today is passed in
explicitly (the source takes datetime.now().strftime of the wall clock).
Iteration over curr_map checks the value's event_date against today
(Python `curr_event.event_date >= today`, i.e. not event_date < today),
classifies a key absent from prev_map as new, a present key with changed
content as updated; iteration over prev_map reports today-or-future keys
absent from curr_map as cancelled, carrying the previous event object. -/
def detectPlatformChanges (md5hex8 : String → String) (today : String)
    (previousEvents currentEvents : List StandardizedEvent) : PlatformChanges :=
  let prevMap := buildKeyMap md5hex8 previousEvents
  let currMap := buildKeyMap md5hex8 currentEvents
  { new_events :=
      (currMap.filter (fun kv =>
        pyStrLe today kv.2.event_date && !(hasKey prevMap kv.1))).map (fun kv => kv.2)
    updated_events :=
      (currMap.filter (fun kv =>
        pyStrLe today kv.2.event_date &&
        (match lookupKM prevMap kv.1 with
         | some prevEvent => hasContentChanged prevEvent kv.2
         | none => false))).map (fun kv => kv.2)
    cancelled_events :=
      (prevMap.filter (fun kv =>
        pyStrLe today kv.2.event_date && !(hasKey currMap kv.1))).map (fun kv => kv.2) }

/-- ChangeDetectionEngine._mark_changes_in_new_data: walks the freshly
collected event list; an event whose key is among the keys of the new events
gets is_new true and discovery_date today, else one whose key is among the
keys of the updated events gets discovery_date today, all other events (and
all other fields) are left as they are. -/
def markChangesInNewData (md5hex8 : String → String) (today : String)
    (currentEvents : List StandardizedEvent) (changes : PlatformChanges) :
    List StandardizedEvent :=
  let newEventKeys := changes.new_events.map (generateEventKey md5hex8)
  let updatedEventKeys := changes.updated_events.map (generateEventKey md5hex8)
  currentEvents.map (fun e =>
    if newEventKeys.contains (generateEventKey md5hex8 e) then
      { e with is_new := true, discovery_date := today }
    else if updatedEventKeys.contains (generateEventKey md5hex8 e) then
      { e with discovery_date := today }
    else e)

/-- The per-platform body of detect_all_changes_with_new_data as it affects
the freshly collected list: detect, then mark the new data only when there is
at least one new or updated event (the source guards the marking call with
`if new_count > 0 or updated_count > 0`). -/
def detectAndMarkPlatform (md5hex8 : String → String) (today : String)
    (previousEvents currentEvents : List StandardizedEvent) :
    List StandardizedEvent :=
  let changes := detectPlatformChanges md5hex8 today previousEvents currentEvents
  if changes.new_events.length > 0 || changes.updated_events.length > 0 then
    markChangesInNewData md5hex8 today currentEvents changes
  else currentEvents

/-- The all-empty change sets a failed platform reports. -/
def emptyChanges : PlatformChanges :=
  { new_events := [], updated_events := [], cancelled_events := [] }

/-- The five platforms iterated by the engine and the lifecycle manager. -/
def platformList : List String :=
  ["cls", "jiuyangongshe", "tonghuashun", "investing", "eastmoney"]

/-- ChangeDetectionEngine.detect_all_changes_with_new_data.  The body of the
per-platform loop runs under try/except; a raised exception makes the
platform's entry the all-empty change sets.  Exceptions cannot be thrown by a
pure Lean function, so whether (and with what message) a platform's iteration
raises is supplied by the oracle fails; previousData abstracts
load_platform_data on the previous partition (which itself returns an empty
list rather than raising on a missing or malformed file) and newData is the
freshly collected data dict, with a missing platform read as an empty list.
Platforms outside the fixed list have no entry in the result dict, read here
as all-empty. -/
def detectAllChangesWithNewData (md5hex8 : String → String) (today : String)
    (fails : String → Option String)
    (previousData newData : String → List StandardizedEvent) :
    String → PlatformChanges :=
  fun platform =>
    if platformList.contains platform then
      match fails platform with
      | some _ => emptyChanges
      | none => detectPlatformChanges md5hex8 today
          (previousData platform) (newData platform)
    else emptyChanges

/-- The dedup-by-event_id loop of DataLifecycleManager._append_to_archive:
a fold over the concatenated list keeping the first occurrence of each
event_id, with seen the set of ids already kept. -/
def dedupByEventId : List StandardizedEvent → List String → List StandardizedEvent
  | [], _ => []
  | e :: rest, seen =>
    if seen.contains e.event_id then dedupByEventId rest seen
    else e :: dedupByEventId rest (e.event_id :: seen)

/-- DataLifecycleManager._append_to_archive on the event lists: existing
archived events are concatenated with the newly appended events and
deduplicated by event_id, first occurrence wins, order preserved. -/
def appendMergeEvents (existingEvents newEvents : List StandardizedEvent) :
    List StandardizedEvent :=
  dedupByEventId (existingEvents ++ newEvents) []

/-- The ids already seen after scanning a list, as accumulated by the dedup
loop. -/
def seenAfter : List StandardizedEvent → List String → List String
  | [], seen => seen
  | e :: rest, seen =>
    if seen.contains e.event_id then seenAfter rest seen
    else seenAfter rest (e.event_id :: seen)

/-- The month partition key year/month derived from a YYYY-MM-DD date by
strptime in archive_specific_date_data; the first seven characters YYYY-MM
identify the same archive file. -/
def monthKey (d : String) : String := String.mk (d.data.take 7)

/-- The in-place data_status = ARCHIVED mark put on each event extracted for
archiving. -/
def markArchived (e : StandardizedEvent) : StandardizedEvent :=
  { e with data_status := "ARCHIVED" }

/-- The three on-disk partitions as read back through load_platform_data:
per-platform event lists for active/current and active/previous, and
per-month-and-platform event lists for archived/{year}/{month}.  A missing
file reads as an empty list. -/
structure StoreState where
  current : String → List StandardizedEvent
  previous : String → List StandardizedEvent
  archived : String → String → List StandardizedEvent

/-- The events of one platform extracted for archiving a target date:
the current events whose event_date equals the date, each marked ARCHIVED. -/
def archiveTargets (targetDate : String) (st : StoreState) (platform : String) :
    List StandardizedEvent :=
  ((st.current platform).filter (fun e => e.event_date == targetDate)).map markArchived

/-- DataLifecycleManager.archive_specific_date_data: for each platform, the
current events dated exactly targetDate are marked ARCHIVED and append-merged
into that platform's archive file for the month of targetDate; when a platform
has no event on that date its archive file is not touched (the source guards
with `if target_date_events`).  Nothing is written to the current or previous
partitions. -/
def archiveSpecificDateData (targetDate : String) (st : StoreState) : StoreState :=
  { st with archived := fun mk platform =>
      if mk == monthKey targetDate && platformList.contains platform then
        let targetEvents := archiveTargets targetDate st platform
        if targetEvents.isEmpty then st.archived mk platform
        else appendMergeEvents (st.archived mk platform) targetEvents
      else st.archived mk platform }

/-- DataLifecycleManager.rotate_future_data_only: the previous directory is
deleted and recreated, then for each platform the current events with
event_date strictly after the archive date are written to previous (an empty
selection writes no file, which reads back as the same empty list).  Platforms
outside the fixed list have no file in the rebuilt directory. -/
def rotateFutureDataOnly (archiveDate : String) (st : StoreState) : StoreState :=
  { st with previous := fun platform =>
      if platformList.contains platform then
        (st.current platform).filter (fun e => pyStrLt archiveDate e.event_date)
      else [] }

/-- Python `x.event_time or "00:00:00"` in the sort key of
get_events_by_date_range: None and the empty string are both falsy. -/
def timeKey (e : StandardizedEvent) : String :=
  match e.event_time with
  | none => "00:00:00"
  | some t => if t == "" then "00:00:00" else t

/-- The ascending sort order of get_events_by_date_range: Python tuple
comparison on (event_date, event_time or "00:00:00"). -/
def eventLEb (a b : StandardizedEvent) : Bool :=
  pyStrLt a.event_date b.event_date ||
  (a.event_date == b.event_date && pyStrLe (timeKey a) (timeKey b))

def eventOrderLE (a b : StandardizedEvent) : Prop := eventLEb a b = true

instance : DecidableRel eventOrderLE :=
  fun a b => inferInstanceAs (Decidable (eventLEb a b = true))

/-- The range filter of get_events_by_date_range: Python
`event.event_date and start_date <= event.event_date <= end_date`, where an
empty event_date is falsy and excluded. -/
def inDateRange (startDate endDate : String) (e : StandardizedEvent) : Bool :=
  !(e.event_date == "") && pyStrLe startDate e.event_date &&
    pyStrLe e.event_date endDate

/-- get_events_by_date_range: concatenates the filtered current events of the
five platforms and sorts ascending by (event_date, event_time or "00:00:00").
Python list.sort is a stable sort under this total preorder, so its output is
the insertion sort by the same order. -/
def getEventsByDateRange (store : String → List StandardizedEvent)
    (startDate endDate : String) : List StandardizedEvent :=
  List.insertionSort eventOrderLE
    ((platformList.map (fun p => (store p).filter (inDateRange startDate endDate))).flatten)

/-- FutureDataCollector._process_eastmoney_xsap event id construction:
em_xsap_ then the event date with dashes removed, then Python
`hash(item.get('HOLIDAY', ''))`.  The Python builtin hash on str is salted
with the per-process PYTHONHASHSEED, so the id construction of one process is
some function processHash of the string; which function it is varies from run
to run.  replace('-', '') removes every dash character. -/
def processEastmoneyXsapEventId (processHash : String → Int)
    (itemDate holiday : String) : String :=
  "em_xsap_" ++ String.mk (itemDate.data.filter (fun c => !(c == '-'))) ++ "_" ++
    toString (processHash holiday)

/-- FutureDataCollector._process_eastmoney_jjsj event id construction:
em_jjsj_ then the raw Date field with dashes, blanks and colons removed, then
Python `hash(data_item.get('Name', ''))`, again the per-process salted
builtin hash. -/
def processEastmoneyJjsjEventId (processHash : String → Int)
    (rawDate name : String) : String :=
  "em_jjsj_" ++
    String.mk (rawDate.data.filter (fun c => !(c == '-' || c == ' ' || c == ':'))) ++
    "_" ++ toString (processHash name)

theorem contains_cons_true {seen : List String} {x i : String} (h : seen.contains i = true) :
    (x :: seen).contains i = true := by
  rw [List.contains_cons, h, Bool.or_true]

theorem contains_cons_self (seen : List String) (i : String) :
    (i :: seen).contains i = true := by
  rw [List.contains_cons]
  simp

theorem contains_cons_split {seen : List String} {x i : String}
    (h : (x :: seen).contains i = true) : i = x ∨ seen.contains i = true := by
  rw [List.contains_cons] at h
  rcases Bool.or_eq_true_iff.mp h with h1 | h1
  · exact Or.inl (beq_iff_eq.mp h1)
  · exact Or.inr h1

theorem contains_cons_build {seen : List String} {x i : String}
    (h1 : (i == x) = false) (h2 : seen.contains i = false) :
    (x :: seen).contains i = false := by
  rw [List.contains_cons, h1, h2]
  rfl

theorem dedup_filter_of_seen :
    ∀ (l : List StandardizedEvent) (seen : List String) (i : String),
      seen.contains i = true →
      (dedupByEventId l seen).filter (fun e => e.event_id == i) = [] := by
  intro l
  induction l with
  | nil => intro seen i h; rfl
  | cons e rest ih =>
    intro seen i h
    unfold dedupByEventId
    by_cases hc : seen.contains e.event_id = true
    · rw [if_pos hc]
      exact ih seen i h
    · rw [if_neg hc]
      have hne : ¬ ((e.event_id == i) = true) := by
        rw [beq_iff_eq]
        intro heq
        rw [heq] at hc
        exact hc h
      rw [List.filter_cons, if_neg hne]
      exact ih (e.event_id :: seen) i (contains_cons_true h)

theorem dedup_filter_of_not_seen :
    ∀ (l : List StandardizedEvent) (seen : List String) (i : String),
      seen.contains i = false →
      (dedupByEventId l seen).filter (fun e => e.event_id == i)
        = (l.filter (fun e => e.event_id == i)).take 1 := by
  intro l
  induction l with
  | nil => intro seen i h; rfl
  | cons e rest ih =>
    intro seen i h
    unfold dedupByEventId
    by_cases hc : seen.contains e.event_id = true
    · rw [if_pos hc]
      have hne : ¬ ((e.event_id == i) = true) := by
        rw [beq_iff_eq]
        intro heq
        rw [heq] at hc
        rw [hc] at h
        cases h
      rw [List.filter_cons, if_neg hne]
      exact ih seen i h
    · rw [if_neg hc]
      by_cases he : e.event_id = i
      · have hb : (e.event_id == i) = true := beq_iff_eq.mpr he
        rw [List.filter_cons, if_pos hb, List.filter_cons, if_pos hb]
        have hseen : (e.event_id :: seen).contains i = true := by
          rw [he]
          exact contains_cons_self seen i
        rw [dedup_filter_of_seen rest (e.event_id :: seen) i hseen]
        simp
      · have hb : ¬ ((e.event_id == i) = true) := by
          rw [beq_iff_eq]; exact he
        rw [List.filter_cons, if_neg hb, List.filter_cons, if_neg hb]
        apply ih
        apply contains_cons_build _ h
        rw [beq_eq_false_iff_ne]
        intro heq
        exact he heq.symm

theorem dedup_mem_not_seen :
    ∀ (l : List StandardizedEvent) (seen : List String) (e : StandardizedEvent),
      e ∈ dedupByEventId l seen → seen.contains e.event_id = false := by
  intro l
  induction l with
  | nil => intro seen e h; cases h
  | cons x rest ih =>
    intro seen e h
    unfold dedupByEventId at h
    by_cases hc : seen.contains x.event_id = true
    · rw [if_pos hc] at h
      exact ih seen e h
    · rw [if_neg hc] at h
      rcases List.mem_cons.mp h with h1 | h1
      · rw [h1]
        exact Bool.eq_false_iff.mpr hc
      · have h2 := ih (x.event_id :: seen) e h1
        rw [List.contains_cons] at h2
        exact (Bool.or_eq_false_iff.mp h2).2

theorem dedup_ids_nodup :
    ∀ (l : List StandardizedEvent) (seen : List String),
      ((dedupByEventId l seen).map (fun e => e.event_id)).Nodup := by
  intro l
  induction l with
  | nil => intro seen; simp [dedupByEventId]
  | cons e rest ih =>
    intro seen
    unfold dedupByEventId
    by_cases hc : seen.contains e.event_id = true
    · rw [if_pos hc]
      exact ih seen
    · rw [if_neg hc]
      rw [List.map_cons, List.nodup_cons]
      constructor
      · intro hmem
        rcases List.mem_map.mp hmem with ⟨x, hx, hid⟩
        have h2 := dedup_mem_not_seen rest (e.event_id :: seen) x hx
        rw [List.contains_cons, hid] at h2
        simp at h2
      · exact ih (e.event_id :: seen)

theorem dedup_subset :
    ∀ (l : List StandardizedEvent) (seen : List String) (e : StandardizedEvent),
      e ∈ dedupByEventId l seen → e ∈ l := by
  intro l
  induction l with
  | nil => intro seen e h; cases h
  | cons x rest ih =>
    intro seen e h
    unfold dedupByEventId at h
    by_cases hc : seen.contains x.event_id = true
    · rw [if_pos hc] at h
      exact List.mem_cons_of_mem x (ih seen e h)
    · rw [if_neg hc] at h
      rcases List.mem_cons.mp h with h1 | h1
      · rw [h1]; exact List.mem_cons_self x rest
      · exact List.mem_cons_of_mem x (ih (x.event_id :: seen) e h1)

theorem dedup_cons_pos {seen : List String} {e : StandardizedEvent}
    {rest : List StandardizedEvent} (hc : seen.contains e.event_id = true) :
    dedupByEventId (e :: rest) seen = dedupByEventId rest seen := by
  simp only [dedupByEventId]
  rw [if_pos hc]

theorem dedup_cons_neg {seen : List String} {e : StandardizedEvent}
    {rest : List StandardizedEvent} (hc : ¬ seen.contains e.event_id = true) :
    dedupByEventId (e :: rest) seen = e :: dedupByEventId rest (e.event_id :: seen) := by
  simp only [dedupByEventId]
  rw [if_neg hc]

theorem seenAfter_cons_pos {seen : List String} {e : StandardizedEvent}
    {rest : List StandardizedEvent} (hc : seen.contains e.event_id = true) :
    seenAfter (e :: rest) seen = seenAfter rest seen := by
  simp only [seenAfter]
  rw [if_pos hc]

theorem seenAfter_cons_neg {seen : List String} {e : StandardizedEvent}
    {rest : List StandardizedEvent} (hc : ¬ seen.contains e.event_id = true) :
    seenAfter (e :: rest) seen = seenAfter rest (e.event_id :: seen) := by
  simp only [seenAfter]
  rw [if_neg hc]

theorem dedup_append :
    ∀ (l₁ l₂ : List StandardizedEvent) (seen : List String),
      dedupByEventId (l₁ ++ l₂) seen
        = dedupByEventId l₁ seen ++ dedupByEventId l₂ (seenAfter l₁ seen) := by
  intro l₁
  induction l₁ with
  | nil => intro l₂ seen; rfl
  | cons e rest ih =>
    intro l₂ seen
    simp only [List.cons_append]
    by_cases hc : seen.contains e.event_id = true
    · rw [dedup_cons_pos hc, dedup_cons_pos hc, seenAfter_cons_pos hc]
      exact ih l₂ seen
    · rw [dedup_cons_neg hc, dedup_cons_neg hc, seenAfter_cons_neg hc,
        List.cons_append, ih l₂ (e.event_id :: seen)]

theorem mem_seenAfter_mono :
    ∀ (l : List StandardizedEvent) (seen : List String) (i : String),
      seen.contains i = true → (seenAfter l seen).contains i = true := by
  intro l
  induction l with
  | nil => intro seen i h; exact h
  | cons e rest ih =>
    intro seen i h
    unfold seenAfter
    by_cases hc : seen.contains e.event_id = true
    · rw [if_pos hc]
      exact ih seen i h
    · rw [if_neg hc]
      exact ih (e.event_id :: seen) i (contains_cons_true h)

theorem mem_seenAfter_of_mem :
    ∀ (l : List StandardizedEvent) (seen : List String) (e : StandardizedEvent),
      e ∈ l → (seenAfter l seen).contains e.event_id = true := by
  intro l
  induction l with
  | nil => intro seen e h; cases h
  | cons x rest ih =>
    intro seen e h
    unfold seenAfter
    rcases List.mem_cons.mp h with h1 | h1
    · by_cases hc : seen.contains x.event_id = true
      · rw [if_pos hc, h1]
        exact mem_seenAfter_mono rest seen x.event_id hc
      · rw [if_neg hc, h1]
        exact mem_seenAfter_mono rest (x.event_id :: seen) x.event_id
          (contains_cons_self seen x.event_id)
    · by_cases hc : seen.contains x.event_id = true
      · rw [if_pos hc]
        exact ih seen e h1
      · rw [if_neg hc]
        exact ih (x.event_id :: seen) e h1

theorem dedup_eq_self :
    ∀ (l : List StandardizedEvent) (seen : List String),
      (l.map (fun e => e.event_id)).Nodup →
      (∀ e ∈ l, seen.contains e.event_id = false) →
      dedupByEventId l seen = l := by
  intro l
  induction l with
  | nil => intro seen _ _; rfl
  | cons e rest ih =>
    intro seen hnd hs
    unfold dedupByEventId
    have hc : seen.contains e.event_id = false := hs e (List.mem_cons_self e rest)
    rw [if_neg (by rw [hc]; simp)]
    congr 1
    rw [List.map_cons, List.nodup_cons] at hnd
    apply ih (e.event_id :: seen) hnd.2
    intro x hx
    apply contains_cons_build
    · rw [beq_eq_false_iff_ne]
      intro heq
      exact hnd.1 (List.mem_map.mpr ⟨x, hx, heq⟩)
    · exact hs x (List.mem_cons_of_mem e hx)

theorem dedup_nil_of_all_seen :
    ∀ (l : List StandardizedEvent) (seen : List String),
      (∀ e ∈ l, seen.contains e.event_id = true) →
      dedupByEventId l seen = [] := by
  intro l
  induction l with
  | nil => intro seen _; rfl
  | cons e rest ih =>
    intro seen hs
    unfold dedupByEventId
    have hc : seen.contains e.event_id = true := hs e (List.mem_cons_self e rest)
    rw [if_pos hc]
    apply ih
    intro x hx
    exact hs x (List.mem_cons_of_mem e hx)

theorem dedup_ids_cover :
    ∀ (l : List StandardizedEvent) (seen : List String) (i : String),
      i ∈ l.map (fun e => e.event_id) →
      i ∈ (dedupByEventId l seen).map (fun e => e.event_id) ∨ seen.contains i = true := by
  intro l
  induction l with
  | nil => intro seen i h; cases h
  | cons e rest ih =>
    intro seen i h
    unfold dedupByEventId
    rw [List.map_cons, List.mem_cons] at h
    by_cases hc : seen.contains e.event_id = true
    · rw [if_pos hc]
      rcases h with h1 | h1
      · right
        rw [h1]
        exact hc
      · exact ih seen i h1
    · rw [if_neg hc]
      rcases h with h1 | h1
      · left
        rw [List.map_cons, h1]
        exact List.mem_cons_self _ _
      · rcases ih (e.event_id :: seen) i h1 with h2 | h2
        · left
          rw [List.map_cons]
          exact List.mem_cons_of_mem _ h2
        · rcases contains_cons_split h2 with h3 | h3
          · left
            rw [List.map_cons, h3]
            exact List.mem_cons_self _ _
          · right
            exact h3

/-- C4: archive append-merge deduplicates by event_id with the first
occurrence of the concatenation existing ++ new winning, keeps exactly one
event per id, and re-running the same append on the merged result changes
nothing. -/
theorem c4_append_merge_dedup_idempotent
    (existingEvents newEvents : List StandardizedEvent) :
    (((appendMergeEvents existingEvents newEvents).map (fun e => e.event_id)).Nodup)
    ∧ (∀ i : String,
        (appendMergeEvents existingEvents newEvents).filter (fun e => e.event_id == i)
          = ((existingEvents ++ newEvents).filter (fun e => e.event_id == i)).take 1)
    ∧ appendMergeEvents (appendMergeEvents existingEvents newEvents) newEvents
        = appendMergeEvents existingEvents newEvents := by
  refine ⟨dedup_ids_nodup _ _, fun i => dedup_filter_of_not_seen _ _ i rfl, ?_⟩
  unfold appendMergeEvents
  set d := dedupByEventId (existingEvents ++ newEvents) [] with hd
  rw [dedup_append d newEvents []]
  have h1 : dedupByEventId d [] = d := by
    apply dedup_eq_self
    · rw [hd]
      exact dedup_ids_nodup _ _
    · intro e _
      rfl
  have h2 : dedupByEventId newEvents (seenAfter d []) = [] := by
    apply dedup_nil_of_all_seen
    intro e he
    have hid : e.event_id ∈ (existingEvents ++ newEvents).map (fun e => e.event_id) :=
      List.mem_map.mpr ⟨e, List.mem_append_right _ he, rfl⟩
    rcases dedup_ids_cover (existingEvents ++ newEvents) [] e.event_id hid with h3 | h3
    · rcases List.mem_map.mp h3 with ⟨x, hx, hxid⟩
      rw [← hxid]
      exact mem_seenAfter_of_mem d [] x (by rw [hd]; exact hx)
    · cases h3
  rw [h1, h2, List.append_nil]

/-- C6: append-merging never loses an already archived id, both at the
event-list level and through a whole archive_specific_date_data step on the
store. -/
theorem c6_archive_preservation (st : StoreState) (targetDate mk platform : String)
    (existingEvents newEvents : List StandardizedEvent) (i : String) :
    (i ∈ existingEvents.map (fun e => e.event_id) →
      i ∈ (appendMergeEvents existingEvents newEvents).map (fun e => e.event_id))
    ∧ (i ∈ (st.archived mk platform).map (fun e => e.event_id) →
      i ∈ ((archiveSpecificDateData targetDate st).archived mk platform).map
            (fun e => e.event_id)) := by
  have key : ∀ ex nw : List StandardizedEvent,
      i ∈ ex.map (fun e => e.event_id) →
      i ∈ (appendMergeEvents ex nw).map (fun e => e.event_id) := by
    intro ex nw h
    have hid : i ∈ (ex ++ nw).map (fun e => e.event_id) := by
      rcases List.mem_map.mp h with ⟨x, hx, hxid⟩
      exact List.mem_map.mpr ⟨x, List.mem_append_left _ hx, hxid⟩
    rcases dedup_ids_cover (ex ++ nw) [] i hid with h3 | h3
    · exact h3
    · cases h3
  refine ⟨key existingEvents newEvents, ?_⟩
  intro h
  unfold archiveSpecificDateData
  simp only
  split
  · split
    · exact h
    · exact key _ _ h
  · exact h

/-- A fixed stand-in for the MD5 digest parameter; the witnesses below use
cls-platform events whose identity key never consults it. -/
def md5fix : String → String := fun _ => ""

def evA : StandardizedEvent :=
  { platform := "cls", event_id := "A", original_id := "A",
    event_date := "2025-06-10", title := "CPI" }

def evA2 : StandardizedEvent :=
  { platform := "cls", event_id := "A", original_id := "A",
    event_date := "2025-06-10", title := "CPI Revised" }

def evB : StandardizedEvent :=
  { platform := "cls", event_id := "B", original_id := "B",
    event_date := "2025-06-11", title := "PMI" }

def evJun05 : StandardizedEvent :=
  { platform := "cls", event_id := "D5", original_id := "D5",
    event_date := "2025-06-05", title := "d5" }

def evJun06 : StandardizedEvent :=
  { platform := "cls", event_id := "D6", original_id := "D6",
    event_date := "2025-06-06", title := "d6" }

def evJun07 : StandardizedEvent :=
  { platform := "cls", event_id := "D7", original_id := "D7",
    event_date := "2025-06-07", title := "d7" }

def storeA : StoreState :=
  { current := fun p => if p == "cls" then [evJun05, evJun06, evJun07] else []
    previous := fun _ => []
    archived := fun _ _ => [] }

theorem c4_witness :
    appendMergeEvents (appendMergeEvents [evA] [evA]) [evA]
      = appendMergeEvents [evA] [evA] :=
  (c4_append_merge_dedup_idempotent [evA] [evA]).2.2

theorem c6_witness :
    "A" ∈ (appendMergeEvents [evA] [evA]).map (fun e => e.event_id) :=
  (c6_archive_preservation storeA "2025-06-05" "2025-06" "cls" [evA] [evA] "A").1
    (by decide)

/-- C5: rotation rebuilds the previous partition exclusively from the current
events dated strictly after the boundary date; nothing at or before the
boundary survives (pyStrLe e.event_date archiveDate = false says it is not the
case that event_date is at most the boundary), per platform the rebuilt
partition holds exactly the current events beyond the boundary, and the result
is independent of the old previous content (the directory is deleted and
rebuilt, never append-merged). -/
theorem c5_rotation_exclusivity (archiveDate : String) (st : StoreState) :
    ((rotateFutureDataOnly archiveDate st).current = st.current)
    ∧ (∀ platform e, e ∈ (rotateFutureDataOnly archiveDate st).previous platform →
        pyStrLe e.event_date archiveDate = false)
    ∧ (∀ platform, platform ∈ platformList →
        ∀ e, e ∈ (rotateFutureDataOnly archiveDate st).previous platform ↔
          (e ∈ st.current platform ∧ pyStrLt archiveDate e.event_date = true))
    ∧ (∀ st2 : StoreState, st2.current = st.current →
        (rotateFutureDataOnly archiveDate st2).previous
          = (rotateFutureDataOnly archiveDate st).previous) := by
  refine ⟨rfl, ?_, ?_, ?_⟩
  · intro platform e he
    unfold rotateFutureDataOnly at he
    simp only at he
    by_cases hp : platformList.contains platform = true
    · rw [if_pos hp] at he
      have hlt := (List.mem_filter.mp he).2
      show (!(pyStrLt archiveDate e.event_date)) = false
      rw [hlt]
      rfl
    · rw [if_neg hp] at he
      cases he
  · intro platform hp e
    unfold rotateFutureDataOnly
    simp only
    rw [if_pos (List.elem_iff.mpr hp)]
    exact List.mem_filter
  · intro st2 h2
    unfold rotateFutureDataOnly
    simp only [h2]

theorem c5_witness :
    evJun06 ∈ (rotateFutureDataOnly "2025-06-05" storeA).previous "cls" :=
  (((c5_rotation_exclusivity "2025-06-05" storeA).2.2.1 "cls" (by decide)
    evJun06).mpr ⟨by decide, by decide⟩)

/-- C10: archiving a specific date writes only to the archive partition of
that date's month: the current and previous partitions are untouched, other
archive cells are untouched, every event put into the archive is a copy of a
current event of the target date with only its data_status changed to
ARCHIVED, and the current partition still holds the original events of the
target date afterwards. -/
theorem c10_archive_frame (targetDate : String) (st : StoreState) :
    ((archiveSpecificDateData targetDate st).current = st.current)
    ∧ ((archiveSpecificDateData targetDate st).previous = st.previous)
    ∧ (∀ mk platform, mk ≠ monthKey targetDate →
        (archiveSpecificDateData targetDate st).archived mk platform
          = st.archived mk platform)
    ∧ (∀ platform e, e ∈ archiveTargets targetDate st platform →
        e.data_status = "ARCHIVED"
        ∧ ∃ c, c ∈ st.current platform ∧ c.event_date = targetDate
            ∧ e = markArchived c)
    ∧ (∀ platform e, e ∈ st.current platform → e.event_date = targetDate →
        e ∈ (archiveSpecificDateData targetDate st).current platform) := by
  refine ⟨rfl, rfl, ?_, ?_, ?_⟩
  · intro mk platform hmk
    unfold archiveSpecificDateData
    simp only
    rw [if_neg]
    intro hand
    rcases Bool.and_eq_true_iff.mp hand with ⟨h1, _⟩
    exact hmk (beq_iff_eq.mp h1)
  · intro platform e he
    unfold archiveTargets at he
    rcases List.mem_map.mp he with ⟨c, hc, hm⟩
    have hcm := List.mem_filter.mp hc
    refine ⟨?_, c, hcm.1, beq_iff_eq.mp hcm.2, hm.symm⟩
    rw [← hm]
    rfl
  · intro platform e he _
    exact he

theorem c10_witness :
    (archiveSpecificDateData "2025-06-05" storeA).current = storeA.current :=
  (c10_archive_frame "2025-06-05" storeA).1

theorem mem_filter_map_snd {m : List (String × StandardizedEvent)}
    {p : String × StandardizedEvent → Bool} {e : StandardizedEvent} :
    e ∈ (m.filter p).map (fun kv => kv.2)
      ↔ ∃ kv, kv ∈ m ∧ p kv = true ∧ kv.2 = e := by
  rw [List.mem_map]
  constructor
  · rintro ⟨kv, hkv, hsnd⟩
    have h2 := List.mem_filter.mp hkv
    exact ⟨kv, h2.1, h2.2, hsnd⟩
  · rintro ⟨kv, h1, h2, h3⟩
    exact ⟨kv, List.mem_filter.mpr ⟨h1, h2⟩, h3⟩

/-- C1: per platform, the today-or-future entries of the current key map are
partitioned by key into new (key absent from the previous map), updated (key
present and one of title, event_datetime, importance, content, country
differs) and unchanged (key present, none of the five differ, reported in
neither output list); the new, updated and cancelled outputs are pairwise
disjoint by identity key; and every reported new or updated event is dated
today or later (pyStrLe today d = true says d is not strictly before
today). -/
theorem c1_diff_partition (md5hex8 : String → String) (today : String)
    (previousEvents currentEvents : List StandardizedEvent) :
    (∀ kv ∈ buildKeyMap md5hex8 currentEvents,
      pyStrLe today kv.2.event_date = true →
        ((kv.2 ∈ (detectPlatformChanges md5hex8 today previousEvents currentEvents).new_events
            ∧ hasKey (buildKeyMap md5hex8 previousEvents) kv.1 = false)
         ∨ (kv.2 ∈ (detectPlatformChanges md5hex8 today previousEvents currentEvents).updated_events
            ∧ ∃ pe, lookupKM (buildKeyMap md5hex8 previousEvents) kv.1 = some pe
                ∧ hasContentChanged pe kv.2 = true)
         ∨ (kv.2 ∉ (detectPlatformChanges md5hex8 today previousEvents currentEvents).new_events
            ∧ kv.2 ∉ (detectPlatformChanges md5hex8 today previousEvents currentEvents).updated_events
            ∧ ∃ pe, lookupKM (buildKeyMap md5hex8 previousEvents) kv.1 = some pe
                ∧ hasContentChanged pe kv.2 = false)))
    ∧ (∀ e ∈ (detectPlatformChanges md5hex8 today previousEvents currentEvents).new_events,
       ∀ u ∈ (detectPlatformChanges md5hex8 today previousEvents currentEvents).updated_events,
        generateEventKey md5hex8 e ≠ generateEventKey md5hex8 u)
    ∧ (∀ e ∈ (detectPlatformChanges md5hex8 today previousEvents currentEvents).new_events,
       ∀ c ∈ (detectPlatformChanges md5hex8 today previousEvents currentEvents).cancelled_events,
        generateEventKey md5hex8 e ≠ generateEventKey md5hex8 c)
    ∧ (∀ u ∈ (detectPlatformChanges md5hex8 today previousEvents currentEvents).updated_events,
       ∀ c ∈ (detectPlatformChanges md5hex8 today previousEvents currentEvents).cancelled_events,
        generateEventKey md5hex8 u ≠ generateEventKey md5hex8 c)
    ∧ (∀ e ∈ (detectPlatformChanges md5hex8 today previousEvents currentEvents).new_events,
        pyStrLe today e.event_date = true)
    ∧ (∀ u ∈ (detectPlatformChanges md5hex8 today previousEvents currentEvents).updated_events,
        pyStrLe today u.event_date = true) := by
  have hnew : (detectPlatformChanges md5hex8 today previousEvents currentEvents).new_events
      = ((buildKeyMap md5hex8 currentEvents).filter (fun kv =>
          pyStrLe today kv.2.event_date
            && !(hasKey (buildKeyMap md5hex8 previousEvents) kv.1))).map (fun kv => kv.2) := rfl
  have hupd : (detectPlatformChanges md5hex8 today previousEvents currentEvents).updated_events
      = ((buildKeyMap md5hex8 currentEvents).filter (fun kv =>
          pyStrLe today kv.2.event_date &&
          (match lookupKM (buildKeyMap md5hex8 previousEvents) kv.1 with
           | some prevEvent => hasContentChanged prevEvent kv.2
           | none => false))).map (fun kv => kv.2) := rfl
  have hcan : (detectPlatformChanges md5hex8 today previousEvents currentEvents).cancelled_events
      = ((buildKeyMap md5hex8 previousEvents).filter (fun kv =>
          pyStrLe today kv.2.event_date
            && !(hasKey (buildKeyMap md5hex8 currentEvents) kv.1))).map (fun kv => kv.2) := rfl
  refine ⟨?_, ?_, ?_, ?_, ?_, ?_⟩
  · intro kv hkv hd
    by_cases hk : hasKey (buildKeyMap md5hex8 previousEvents) kv.1 = true
    · rcases lookupKM_isSome_of_hasKey hk with ⟨pe, hpe⟩
      by_cases hcc : hasContentChanged pe kv.2 = true
      · right; left
        refine ⟨?_, pe, hpe, hcc⟩
        rw [hupd]
        apply mem_filter_map_snd.mpr
        refine ⟨kv, hkv, ?_, rfl⟩
        simp only [Bool.and_eq_true]
        refine ⟨hd, ?_⟩
        rw [hpe]
        exact hcc
      · right; right
        have hccf : hasContentChanged pe kv.2 = false := Bool.eq_false_iff.mpr hcc
        refine ⟨?_, ?_, pe, hpe, hccf⟩
        · intro hmem
          rw [hnew] at hmem
          rcases mem_filter_map_snd.mp hmem with ⟨kv2, hkv2, hp2, hs2⟩
          simp only [Bool.and_eq_true, Bool.not_eq_true'] at hp2
          have hkeq : kv2.1 = kv.1 := by
            rw [(mem_buildKeyMap hkv2).1, (mem_buildKeyMap hkv).1, hs2]
          rw [hkeq, hk] at hp2
          cases hp2.2
        · intro hmem
          rw [hupd] at hmem
          rcases mem_filter_map_snd.mp hmem with ⟨kv2, hkv2, hp2, hs2⟩
          simp only [Bool.and_eq_true] at hp2
          have hkeq : kv2.1 = kv.1 := by
            rw [(mem_buildKeyMap hkv2).1, (mem_buildKeyMap hkv).1, hs2]
          have hmtch := hp2.2
          rw [hkeq, hpe] at hmtch
          have hcc2 : hasContentChanged pe kv2.2 = true := hmtch
          rw [hs2, hccf] at hcc2
          cases hcc2
    · have hkf : hasKey (buildKeyMap md5hex8 previousEvents) kv.1 = false :=
        Bool.eq_false_iff.mpr hk
      left
      refine ⟨?_, hkf⟩
      rw [hnew]
      apply mem_filter_map_snd.mpr
      refine ⟨kv, hkv, ?_, rfl⟩
      simp only [Bool.and_eq_true, Bool.not_eq_true']
      exact ⟨hd, hkf⟩
  · intro e hme u hmu heq
    rw [hnew] at hme
    rw [hupd] at hmu
    rcases mem_filter_map_snd.mp hme with ⟨kv1, hkv1, hp1, hs1⟩
    rcases mem_filter_map_snd.mp hmu with ⟨kv2, hkv2, hp2, hs2⟩
    simp only [Bool.and_eq_true, Bool.not_eq_true'] at hp1
    simp only [Bool.and_eq_true] at hp2
    have hk1 : kv1.1 = generateEventKey md5hex8 e := by
      rw [(mem_buildKeyMap hkv1).1, hs1]
    have hk2 : kv2.1 = generateEventKey md5hex8 u := by
      rw [(mem_buildKeyMap hkv2).1, hs2]
    have hmtch := hp2.2
    cases hl : lookupKM (buildKeyMap md5hex8 previousEvents) kv2.1 with
    | none =>
      rw [hl] at hmtch
      cases hmtch
    | some pe =>
      have hhk := hasKey_of_lookupKM hl
      rw [hk2, ← heq, ← hk1] at hhk
      rw [hp1.2] at hhk
      cases hhk
  · intro e hme c hmc heq
    rw [hnew] at hme
    rw [hcan] at hmc
    rcases mem_filter_map_snd.mp hme with ⟨kv1, hkv1, hp1, hs1⟩
    rcases mem_filter_map_snd.mp hmc with ⟨kv3, hkv3, hp3, hs3⟩
    simp only [Bool.and_eq_true, Bool.not_eq_true'] at hp1 hp3
    have hk1 : kv1.1 = generateEventKey md5hex8 e := by
      rw [(mem_buildKeyMap hkv1).1, hs1]
    have hk3 : kv3.1 = generateEventKey md5hex8 c := by
      rw [(mem_buildKeyMap hkv3).1, hs3]
    have hcur := hasKey_of_mem hkv1
    rw [hk1, heq, ← hk3] at hcur
    rw [hp3.2] at hcur
    cases hcur
  · intro u hmu c hmc heq
    rw [hupd] at hmu
    rw [hcan] at hmc
    rcases mem_filter_map_snd.mp hmu with ⟨kv2, hkv2, hp2, hs2⟩
    rcases mem_filter_map_snd.mp hmc with ⟨kv3, hkv3, hp3, hs3⟩
    simp only [Bool.and_eq_true, Bool.not_eq_true'] at hp3
    have hk2 : kv2.1 = generateEventKey md5hex8 u := by
      rw [(mem_buildKeyMap hkv2).1, hs2]
    have hk3 : kv3.1 = generateEventKey md5hex8 c := by
      rw [(mem_buildKeyMap hkv3).1, hs3]
    have hcur := hasKey_of_mem hkv2
    rw [hk2, heq, ← hk3] at hcur
    rw [hp3.2] at hcur
    cases hcur
  · intro e hme
    rw [hnew] at hme
    rcases mem_filter_map_snd.mp hme with ⟨kv1, hkv1, hp1, hs1⟩
    simp only [Bool.and_eq_true, Bool.not_eq_true'] at hp1
    rw [← hs1]
    exact hp1.1
  · intro u hmu
    rw [hupd] at hmu
    rcases mem_filter_map_snd.mp hmu with ⟨kv2, hkv2, hp2, hs2⟩
    simp only [Bool.and_eq_true] at hp2
    rw [← hs2]
    exact hp2.1

/-- C2: every today-or-future key of the previous map that is absent from the
current map is reported cancelled, the cancelled report carries the event
object of the previous snapshot, and no past-dated previous event is ever
reported cancelled (every cancelled event satisfies pyStrLe today d = true,
i.e. its date is not strictly before today). -/
theorem c2_cancelled_detection (md5hex8 : String → String) (today : String)
    (previousEvents currentEvents : List StandardizedEvent) :
    (∀ kv ∈ buildKeyMap md5hex8 previousEvents,
      pyStrLe today kv.2.event_date = true →
      hasKey (buildKeyMap md5hex8 currentEvents) kv.1 = false →
      kv.2 ∈ (detectPlatformChanges md5hex8 today previousEvents currentEvents).cancelled_events)
    ∧ (∀ e ∈ (detectPlatformChanges md5hex8 today previousEvents currentEvents).cancelled_events,
      e ∈ previousEvents ∧ pyStrLe today e.event_date = true
      ∧ hasKey (buildKeyMap md5hex8 currentEvents) (generateEventKey md5hex8 e) = false) := by
  have hcan : (detectPlatformChanges md5hex8 today previousEvents currentEvents).cancelled_events
      = ((buildKeyMap md5hex8 previousEvents).filter (fun kv =>
          pyStrLe today kv.2.event_date
            && !(hasKey (buildKeyMap md5hex8 currentEvents) kv.1))).map (fun kv => kv.2) := rfl
  constructor
  · intro kv hkv hd hnc
    rw [hcan]
    apply mem_filter_map_snd.mpr
    refine ⟨kv, hkv, ?_, rfl⟩
    simp only [Bool.and_eq_true, Bool.not_eq_true']
    exact ⟨hd, hnc⟩
  · intro e hme
    rw [hcan] at hme
    rcases mem_filter_map_snd.mp hme with ⟨kv, hkv, hp, hs⟩
    simp only [Bool.and_eq_true, Bool.not_eq_true'] at hp
    have h1 := mem_buildKeyMap hkv
    refine ⟨hs ▸ h1.2, hs ▸ hp.1, ?_⟩
    rw [← hs, ← h1.1]
    exact hp.2

theorem c1_witness :
    evB ∈ (detectPlatformChanges md5fix "2025-06-05" [evA] [evA, evB]).new_events := by
  have h := (c1_diff_partition md5fix "2025-06-05" [evA] [evA, evB]).1
    (generateEventKey md5fix evB, evB) (by decide) (by decide)
  have hnone : lookupKM (buildKeyMap md5fix [evA])
      (generateEventKey md5fix evB, evB).1 = none := by decide
  rcases h with ⟨hmem, _⟩ | ⟨_, pe, hpe, _⟩ | ⟨_, _, pe, hpe, _⟩
  · exact hmem
  · rw [hnone] at hpe
    cases hpe
  · rw [hnone] at hpe
    cases hpe

theorem c2_witness :
    evA ∈ (detectPlatformChanges md5fix "2025-06-05" [evA] []).cancelled_events :=
  (c2_cancelled_detection md5fix "2025-06-05" [evA] []).1
    (generateEventKey md5fix evA, evA) (by decide) (by decide) (by decide)

theorem forall2_map_of_mem {α : Type} {R : α → α → Prop} {f : α → α} :
    ∀ {l : List α}, (∀ e ∈ l, R e (f e)) → List.Forall₂ R l (l.map f) := by
  intro l
  induction l with
  | nil => intro _; exact List.Forall₂.nil
  | cons x xs ih =>
    intro h
    rw [List.map_cons]
    exact List.Forall₂.cons (h x (List.mem_cons_self x xs))
      (ih (fun e he => h e (List.mem_cons_of_mem x he)))

theorem forall2_refl_of_mem {α : Type} {R : α → α → Prop} :
    ∀ {l : List α}, (∀ e ∈ l, R e e) → List.Forall₂ R l l := by
  intro l
  induction l with
  | nil => intro _; exact List.Forall₂.nil
  | cons x xs ih =>
    intro h
    exact List.Forall₂.cons (h x (List.mem_cons_self x xs))
      (ih (fun e he => h e (List.mem_cons_of_mem x he)))

/-- C7: after detection, the marking pass maps the freshly collected list
pointwise (same length, same order): an event whose identity key was
classified new becomes the same event with is_new set true and discovery_date
set to today, one whose key was classified updated (and not new) keeps is_new
and every other field and only gets discovery_date today, and every other
event is returned unchanged.  The structure-update form of the conclusion is
exactly the frame condition: no field other than is_new and discovery_date is
touched. -/
theorem c7_mark_annotation_frame (md5hex8 : String → String) (today : String)
    (previousEvents currentEvents : List StandardizedEvent) :
    List.Forall₂ (fun e m =>
      (((detectPlatformChanges md5hex8 today previousEvents currentEvents).new_events.map
          (generateEventKey md5hex8)).contains (generateEventKey md5hex8 e) = true →
        m = { e with is_new := true, discovery_date := today })
      ∧ (((detectPlatformChanges md5hex8 today previousEvents currentEvents).new_events.map
          (generateEventKey md5hex8)).contains (generateEventKey md5hex8 e) = false →
         ((detectPlatformChanges md5hex8 today previousEvents currentEvents).updated_events.map
          (generateEventKey md5hex8)).contains (generateEventKey md5hex8 e) = true →
        m = { e with discovery_date := today })
      ∧ (((detectPlatformChanges md5hex8 today previousEvents currentEvents).new_events.map
          (generateEventKey md5hex8)).contains (generateEventKey md5hex8 e) = false →
         ((detectPlatformChanges md5hex8 today previousEvents currentEvents).updated_events.map
          (generateEventKey md5hex8)).contains (generateEventKey md5hex8 e) = false →
        m = e))
      currentEvents
      (detectAndMarkPlatform md5hex8 today previousEvents currentEvents) := by
  unfold detectAndMarkPlatform
  by_cases hif : (decide ((detectPlatformChanges md5hex8 today previousEvents
        currentEvents).new_events.length > 0)
      || decide ((detectPlatformChanges md5hex8 today previousEvents
        currentEvents).updated_events.length > 0)) = true
  · rw [if_pos hif]
    unfold markChangesInNewData
    apply forall2_map_of_mem
    intro e he
    by_cases hn : ((detectPlatformChanges md5hex8 today previousEvents
        currentEvents).new_events.map (generateEventKey md5hex8)).contains
        (generateEventKey md5hex8 e) = true
    · rw [if_pos hn]
      refine ⟨fun _ => rfl, fun hnf _ => ?_, fun hnf _ => ?_⟩
      · rw [hn] at hnf; cases hnf
      · rw [hn] at hnf; cases hnf
    · rw [if_neg hn]
      have hnf : ((detectPlatformChanges md5hex8 today previousEvents
          currentEvents).new_events.map (generateEventKey md5hex8)).contains
          (generateEventKey md5hex8 e) = false := Bool.eq_false_iff.mpr hn
      by_cases hu : ((detectPlatformChanges md5hex8 today previousEvents
          currentEvents).updated_events.map (generateEventKey md5hex8)).contains
          (generateEventKey md5hex8 e) = true
      · rw [if_pos hu]
        refine ⟨fun ht => ?_, fun _ _ => rfl, fun _ huf => ?_⟩
        · rw [ht] at hnf; cases hnf
        · rw [hu] at huf; cases huf
      · rw [if_neg hu]
        have huf : ((detectPlatformChanges md5hex8 today previousEvents
            currentEvents).updated_events.map (generateEventKey md5hex8)).contains
            (generateEventKey md5hex8 e) = false := Bool.eq_false_iff.mpr hu
        refine ⟨fun ht => ?_, fun _ hut => ?_, fun _ _ => rfl⟩
        · rw [ht] at hnf; cases hnf
        · rw [hut] at huf; cases huf
  · rw [if_neg hif]
    have hor := Bool.or_eq_false_iff.mp (Bool.eq_false_iff.mpr hif)
    have hn0 : (detectPlatformChanges md5hex8 today previousEvents
        currentEvents).new_events = [] := by
      apply List.length_eq_zero.mp
      have := of_decide_eq_false hor.1
      omega
    have hu0 : (detectPlatformChanges md5hex8 today previousEvents
        currentEvents).updated_events = [] := by
      apply List.length_eq_zero.mp
      have := of_decide_eq_false hor.2
      omega
    apply forall2_refl_of_mem
    intro e he
    refine ⟨fun ht => ?_, fun _ hut => ?_, fun _ _ => rfl⟩
    · rw [hn0] at ht
      cases ht
    · rw [hu0] at hut
      cases hut

theorem c7_witness :
    detectAndMarkPlatform md5fix "2025-06-05" [evA] [evA, evB]
      = [evA, { evB with is_new := true, discovery_date := "2025-06-05" }] := by
  have h := c7_mark_annotation_frame md5fix "2025-06-05" [evA] [evA, evB]
  generalize hm : detectAndMarkPlatform md5fix "2025-06-05" [evA] [evA, evB] = marked at h
  cases h with
  | cons h1 htail =>
    cases htail with
    | cons h2 hnil =>
      cases hnil
      have e1 := h1.2.2 (by decide) (by decide)
      have e2 := h2.1 (by decide)
      rw [e1, e2]

/-- C8: the per-platform loop of detect_all_changes_with_new_data catches any
exception and reports all-empty change sets for the failing platform; a
platform that does not fail reports exactly the detection result of its own
inputs, and the result for one platform does not depend on the failure status
of any other platform.  Whether a platform's iteration raises is supplied by
the oracle fails, since a pure embedding cannot throw. -/
theorem c8_failure_isolation (md5hex8 : String → String) (today : String)
    (fails : String → Option String)
    (previousData newData : String → List StandardizedEvent)
    (platform : String) (hp : platform ∈ platformList) :
    (∀ msg, fails platform = some msg →
      detectAllChangesWithNewData md5hex8 today fails previousData newData platform
        = emptyChanges)
    ∧ (fails platform = none →
      detectAllChangesWithNewData md5hex8 today fails previousData newData platform
        = detectPlatformChanges md5hex8 today (previousData platform) (newData platform))
    ∧ (∀ fails2 : String → Option String, fails2 platform = fails platform →
      detectAllChangesWithNewData md5hex8 today fails2 previousData newData platform
        = detectAllChangesWithNewData md5hex8 today fails previousData newData platform) := by
  have hc : platformList.contains platform = true := List.elem_iff.mpr hp
  refine ⟨?_, ?_, ?_⟩
  · intro msg hm
    unfold detectAllChangesWithNewData
    rw [if_pos hc, hm]
  · intro hm
    unfold detectAllChangesWithNewData
    rw [if_pos hc, hm]
  · intro fails2 h2
    unfold detectAllChangesWithNewData
    rw [if_pos hc, if_pos hc, h2]

def failsEx : String → Option String := fun p => if p == "cls" then some "boom" else none

theorem c8_witness :
    detectAllChangesWithNewData md5fix "2025-06-05" failsEx
      (fun _ => []) (fun _ => []) "cls" = emptyChanges :=
  (c8_failure_isolation md5fix "2025-06-05" failsEx (fun _ => []) (fun _ => []) "cls"
    (by decide)).1 "boom" (by decide)

instance : IsTotal StandardizedEvent eventOrderLE := by
  constructor
  intro a b
  unfold eventOrderLE eventLEb
  by_cases h1 : pyStrLt a.event_date b.event_date = true
  · left
    rw [h1]
    rfl
  · by_cases h2 : pyStrLt b.event_date a.event_date = true
    · right
      rw [h2]
      rfl
    · have heq : a.event_date = b.event_date :=
        pyStrLt_conn (Bool.eq_false_iff.mpr h1) (Bool.eq_false_iff.mpr h2)
      rcases pyStrLe_total (timeKey a) (timeKey b) with h3 | h3
      · left
        rw [Bool.or_eq_true_iff]
        right
        rw [Bool.and_eq_true_iff]
        exact ⟨beq_iff_eq.mpr heq, h3⟩
      · right
        rw [Bool.or_eq_true_iff]
        right
        rw [Bool.and_eq_true_iff]
        exact ⟨beq_iff_eq.mpr heq.symm, h3⟩

instance : IsTrans StandardizedEvent eventOrderLE := by
  constructor
  intro a b c hab hbc
  unfold eventOrderLE eventLEb at hab hbc ⊢
  rcases Bool.or_eq_true_iff.mp hab with h1 | h1
  · rcases Bool.or_eq_true_iff.mp hbc with h2 | h2
    · rw [Bool.or_eq_true_iff]
      left
      exact pyStrLt_trans h1 h2
    · rcases Bool.and_eq_true_iff.mp h2 with ⟨h2e, _⟩
      rw [Bool.or_eq_true_iff]
      left
      rw [← beq_iff_eq.mp h2e]
      exact h1
  · rcases Bool.and_eq_true_iff.mp h1 with ⟨h1e, h1t⟩
    rcases Bool.or_eq_true_iff.mp hbc with h2 | h2
    · rw [Bool.or_eq_true_iff]
      left
      rw [beq_iff_eq.mp h1e]
      exact h2
    · rcases Bool.and_eq_true_iff.mp h2 with ⟨h2e, h2t⟩
      rw [Bool.or_eq_true_iff]
      right
      rw [Bool.and_eq_true_iff]
      constructor
      · rw [beq_iff_eq]
        rw [beq_iff_eq.mp h1e, beq_iff_eq.mp h2e]
      · exact pyStrLe_trans h1t h2t

/-- C9 as stated is false: the query performs no deduplication.  A stored
current state in which every platform file carries the same event (each file
is just parsed, nothing constrains its contents) makes the query return five
identical copies, so the returned list is not duplicate-free. -/
theorem c9_counterexample :
    ¬ (getEventsByDateRange (fun _ => [evA]) "2025-06-01" "2025-06-30").Nodup := by
  decide

/-- C9 amended: the date-range query returns the concatenation of the five
platforms' stored events with a nonempty event_date inside the inclusive
range, sorted ascending by (event_date, event_time or 00:00:00); duplicates
present in the stored state are preserved (the result is a permutation of the
filtered concatenation, with no deduplication). -/
theorem c9_query_contract (store : String → List StandardizedEvent)
    (startDate endDate : String) :
    List.Sorted eventOrderLE (getEventsByDateRange store startDate endDate)
    ∧ (getEventsByDateRange store startDate endDate).Perm
        ((platformList.map (fun p =>
          (store p).filter (inDateRange startDate endDate))).flatten)
    ∧ (∀ e, e ∈ getEventsByDateRange store startDate endDate ↔
        ∃ p, p ∈ platformList ∧ e ∈ store p ∧ inDateRange startDate endDate e = true) := by
  refine ⟨List.sorted_insertionSort eventOrderLE _, List.perm_insertionSort eventOrderLE _, ?_⟩
  intro e
  unfold getEventsByDateRange
  rw [(List.perm_insertionSort eventOrderLE _).mem_iff, List.mem_flatten]
  constructor
  · rintro ⟨l, hl, hel⟩
    rcases List.mem_map.mp hl with ⟨p, hp, hfp⟩
    rw [← hfp] at hel
    have h2 := List.mem_filter.mp hel
    exact ⟨p, hp, h2.1, h2.2⟩
  · rintro ⟨p, hp, hep, hrange⟩
    exact ⟨(store p).filter (inDateRange startDate endDate),
      List.mem_map.mpr ⟨p, hp, rfl⟩, List.mem_filter.mpr ⟨hep, hrange⟩⟩

theorem c9_witness :
    evA ∈ getEventsByDateRange (fun _ => [evA]) "2025-06-01" "2025-06-30" :=
  ((c9_query_contract (fun _ => [evA]) "2025-06-01" "2025-06-30").2.2 evA).mpr
    ⟨"cls", by decide, by decide, by decide⟩

/-- C3 is violated by the code: the eastmoney xsap and jjsj adapters build
event_id from Python's builtin hash of a source string, and that hash is
salted with the per-process PYTHONHASHSEED, so two runs of the program (two
processes, hence two different hash functions) produce different event_id
strings for the identical source item.  The two function arguments below
stand for the string hash of two processes that map the relevant string to 0
and to 1. -/
theorem c3_event_id_process_hash_dependence :
    (processEastmoneyXsapEventId (fun _ => 0) "2025-06-10" "端午节"
      ≠ processEastmoneyXsapEventId (fun _ => 1) "2025-06-10" "端午节")
    ∧ (processEastmoneyJjsjEventId (fun _ => 0) "2025-06-10 09:30:00" "GDP"
      ≠ processEastmoneyJjsjEventId (fun _ => 1) "2025-06-10 09:30:00" "GDP") := by
  decide

end InvestmentCalendar
